import Mathlib

/-!
Shallow embedding of the power-allocation core of the `reactive-hass`
repository, together with proofs settling the frozen claims about it.

Conventions of the embedding:
* Watt values (levels, budgets, observed power) are modelled as `ℤ`: the
  allocator, manager and reconciliation code only add, subtract and compare
  them.  Priority scores, aggregation-window values and weights are `ℚ`
  (the smoothing functions divide); timestamps are `ℤ` milliseconds.
* A JS `Record<LoadId, V>` is modelled as an association list
  `List (String × V)` in insertion order.  Keys of a JS record are unique,
  so fresh-key assignment is modelled by appending.
* `Array.prototype.sort` (stable since ES2019) with comparator
  `(a, b) => b - a` resp. `(a, b) => a - b` is modelled by the stable
  `List.insertionSort` under the corresponding total preorder.
* rxjs streams are modelled by the list of values they emit; a `scan` is a
  `List.scanl`, a `map` is a `List.map`, `distinctUntilChanged` drops
  consecutive duplicates.
-/

namespace ReactiveHass

/-- Embedding of `src/energy/types.ts` — control characteristics of a load: the discrete
power levels (watts) it is willing to run at. -/
structure LoadControl where
  levels : List ℤ
deriving Repr, DecidableEq

/-- Embedding of `src/energy/types.ts` — result of the eligibility check (the optional
`reason` string carries no algorithmic content and is omitted). -/
structure EligibilityResult where
  eligible : Bool
deriving Repr, DecidableEq

/-- Embedding of `src/energy/types.ts` — result of the priority calculation (the optional
`breakdown` record is debug-only and omitted). -/
structure PriorityResult where
  score : ℚ
deriving Repr, DecidableEq

/-- Embedding of `src/energy/types.ts` — the optimistic expected actuator state. -/
structure ExpectedPower where
  isActive : Bool
  power : ℤ
  hasPendingCommand : Bool
deriving Repr, DecidableEq

/-- Embedding of `src/energy/types.ts` — telemetry confidence tag. -/
inductive Confidence where
  | high
  | medium
  | low
deriving Repr, DecidableEq

/-- Embedding of `src/energy/types.ts` — `LoadState`: complete state information for a
load. -/
structure LoadState where
  expected : ExpectedPower
  control : LoadControl
  eligibility : EligibilityResult
  priority : PriorityResult
deriving Repr, DecidableEq

/-- Embedding of `src/energy/types.ts` — `LoadPowerState`: a load's observed power. -/
structure LoadPowerState where
  isActive : Bool
  power : ℤ
  confidence : Confidence
deriving Repr, DecidableEq

/-- State threaded through the allocation loop of `allocatePower`
(`src/energy/allocatePower.ts`, lines 48-52): the running `remainingPower`
and the `allocations` record built so far. -/
structure AllocState where
  remaining : ℤ
  allocations : List (String × ℤ)
deriving Repr, DecidableEq

/-- One iteration of the allocation loop of `allocatePower`
(`src/energy/allocatePower.ts`, lines 54-91): filter the load's levels to
those with `level <= remainingPower + loadCurrentPower[loadId].power`, sort
them descending (`.sort((a, b) => b - a)`), and take `levelsAllowed[0]`; if
that is `undefined` or `0` (both falsy in JS) allocate `0` and leave
`remainingPower` unchanged, otherwise allocate it and subtract it from
`remainingPower`. -/
def allocLoopStep (loadCurrentPower : String → LoadPowerState)
    (st : AllocState) (entry : String × LoadState) : AllocState :=
  let levelsAllowed :=
    List.insertionSort (fun a b : ℤ => b ≤ a)
      ((entry.2.control.levels).filter
        (fun level => decide (level ≤ st.remaining + (loadCurrentPower entry.1).power)))
  match levelsAllowed.head? with
  | none => ⟨st.remaining, st.allocations ++ [(entry.1, 0)]⟩
  | some m =>
      if m = 0 then ⟨st.remaining, st.allocations ++ [(entry.1, 0)]⟩
      else ⟨st.remaining - m, st.allocations ++ [(entry.1, m)]⟩

/-- Record lookup, `allocations[loadId]` (`undefined` when absent). -/
def allocLookup (allocations : List (String × ℤ)) (loadId : String) : Option ℤ :=
  List.lookup loadId allocations

/-- One iteration of the second loop of `allocatePower`
(`src/energy/allocatePower.ts`, lines 93-99): `if (!load.eligibility.eligible
&& !allocations[loadId]) allocations[loadId] = 0`.  A missing entry and an
entry `0` are both falsy.  (The loop ranges over the already-filtered
`eligible` array, mirrored faithfully in `allocatePower` below.) -/
def ineligibleZeroStep (allocations : List (String × ℤ))
    (entry : String × LoadState) : List (String × ℤ) :=
  if ¬ entry.2.eligibility.eligible = true ∧
      (allocLookup allocations entry.1 = none ∨ allocLookup allocations entry.1 = some 0) then
    allocations ++ [(entry.1, 0)]
  else
    allocations

/-- Embedding of `src/energy/allocatePower.ts` — `allocatePower(loads, loadCurrentPower,
availablePower, debug)`: filter to eligible loads, sort by priority score
descending (stable, `(a, b) => b[1].priority.score - a[1].priority.score`),
run the allocation loop, then run the set-0W-for-ineligible loop (which, as
in the source, iterates over the `eligible` array).  The `debug` argument
has no effect on the result and is omitted. -/
def allocatePower (loads : List (String × LoadState))
    (loadCurrentPower : String → LoadPowerState)
    (availablePower : ℤ) : List (String × ℤ) :=
  let eligible := loads.filter (fun e => e.2.eligibility.eligible)
  let sorted := List.insertionSort
    (fun a b : String × LoadState => b.2.priority.score ≤ a.2.priority.score) eligible
  let final := sorted.foldl (allocLoopStep loadCurrentPower) ⟨availablePower, []⟩
  sorted.foldl ineligibleZeroStep final.allocations

/-- Sum of the allocated watts over all entries of an allocation. -/
def allocSum (allocations : List (String × ℤ)) : ℤ :=
  (allocations.map Prod.snd).sum

/-- Sum of the observed power of the loads that are currently drawing power
(observed power strictly positive) — the "loads that were already active"
of spec §8 property 4. -/
def activePowerSum (loads : List (String × LoadState))
    (loadCurrentPower : String → LoadPowerState) : ℤ :=
  ((loads.map (fun e => (loadCurrentPower e.1).power)).filter
    (fun p => decide (0 < p))).sum

/-- The per-load choice as the spec words it (§4.1 step 3b-c): "a level `L`
is feasible if `L <= remaining + observed[load].power`; choose the largest
feasible level; if no level is feasible, allocate 0."  Stated with a direct
maximum instead of the source's filter-sort-take-first. -/
def specChooseLevel (levels : List ℤ) (bound : ℤ) : ℤ :=
  match levels.filter (fun level => decide (level ≤ bound)) with
  | [] => 0
  | x :: xs => xs.foldl max x

/-- The allocation loop with the spec's per-load choice (`specChooseLevel`)
substituted for the source's filter-sort-take-first, and the source's
remaining-power bookkeeping (`remainingPower -= chosenLevel`). -/
def specAllocStep (loadCurrentPower : String → LoadPowerState)
    (st : AllocState) (entry : String × LoadState) : AllocState :=
  let chosen := specChooseLevel entry.2.control.levels
    (st.remaining + (loadCurrentPower entry.1).power)
  ⟨st.remaining - chosen, st.allocations ++ [(entry.1, chosen)]⟩

/-- Variant of `allocatePower` worded as the spec words the per-load
choice: filter to eligible loads, stable-sort by priority descending, then
assign each load the largest feasible level (0 when none). -/
def specAllocatePower (loads : List (String × LoadState))
    (loadCurrentPower : String → LoadPowerState)
    (availablePower : ℤ) : List (String × ℤ) :=
  let eligible := loads.filter (fun e => e.2.eligibility.eligible)
  let sorted := List.insertionSort
    (fun a b : String × LoadState => b.2.priority.score ≤ a.2.priority.score) eligible
  (sorted.foldl (specAllocStep loadCurrentPower) ⟨availablePower, []⟩).allocations

/-- Embedding of the per-cycle decision of `createLoadManager$`
(`src/energy/loadManager.ts`, lines 232-268): given the snapshot of load
states, the loads' actual power, the smoothed available power and the
previous allocation (`powerAllocation`, `null` on bootstrap), compute
`loadsNotInSync = powerAllocation && Object.keys(loadStates).filter(id =>
powerAllocation?.[id] !== loadsActualPower[id].power)`; if it is non-null
and non-empty the cycle is skipped (`return EMPTY`, modelled as `none`),
otherwise a fresh `allocatePower` result is published. -/
def decideAllocation (loadStates : List (String × LoadState))
    (loadsActualPower : String → LoadPowerState)
    (availablePower : ℤ)
    (powerAllocation : Option (List (String × ℤ))) : Option (List (String × ℤ)) :=
  match powerAllocation with
  | none => some (allocatePower loadStates loadsActualPower availablePower)
  | some prev =>
      let loadsNotInSync := (loadStates.map Prod.fst).filter
        (fun id => ! decide (List.lookup id prev = some (loadsActualPower id).power))
      if 0 < loadsNotInSync.length then none
      else some (allocatePower loadStates loadsActualPower availablePower)

/-- Retry cap of the BLE telemetry poll of `teslaChargingLoad`
(`retry({ count: 3, ... })` on `bleState$`). -/
def bleRetryCount : ℕ := 3

/-- Backoff delay of the BLE telemetry poll of `teslaChargingLoad`:
`Math.min(1000 * Math.pow(2, retryCount), 10000)` milliseconds. -/
def bleRetryDelayMs (retryCount : ℕ) : ℕ :=
  min (1000 * 2 ^ retryCount) 10000

/-- Observable effects of one reconciliation pass of `teslaChargingLoad`:
how many times the actuator command sequence was attempted, how many
failure / success notifications were sent through the notification sink,
every value pushed to `expectedState$`, and the last such value (the input
`expected` when nothing was pushed). -/
structure ReconcileOutcome where
  commandAttempts : ℕ
  failureNotifications : ℕ
  successNotifications : ℕ
  expectedUpdates : List ExpectedPower
  finalExpected : ExpectedPower
deriving Repr, DecidableEq

/-- Embedding of the reconciliation `switchMap` body of `teslaChargingLoad`
(the `reconcile$` stream): with `actualPower` the expected power when a
command is pending and the observed power otherwise,

* `targetPower === actualPower` — nothing to do;
* `targetPower === 0 && actualPower > 0` — push a pending stop state, issue
  `stopCharging$` once; on success push the settled state and notify once;
  on failure (`catchError`) push the settled state and return `EMPTY` (no
  notification);
* `targetPower > 0` — push a pending state at the target, issue the
  start/adjust command sequence once (`setChargingAmps$`, preceded by
  `startCharging$` when starting; the commanded amps,
  `Math.round(targetPower / wattsPerAmp)`, do not affect the fields
  tracked here); on success push the confirmed state and notify once; on
  failure push `{isActive: false, power: 0, hasPendingCommand: false}` and
  send one failure notification;
* otherwise — `EMPTY`.

`commandFails` says whether the actuator call fails (a persistently failing
actuator fails it on every pass).  There is no `retry` on any of these
command invocations in the source. -/
def reconcileStep (targetPower currentPower : ℤ) (expected : ExpectedPower)
    (commandFails : Bool) : ReconcileOutcome :=
  let actualPower := if expected.hasPendingCommand then expected.power else currentPower
  if targetPower = actualPower then
    ⟨0, 0, 0, [], expected⟩
  else if targetPower = 0 ∧ 0 < actualPower then
    let pending : ExpectedPower := ⟨false, 0, true⟩
    let settled : ExpectedPower := ⟨false, 0, false⟩
    if commandFails then ⟨1, 0, 0, [pending, settled], settled⟩
    else ⟨1, 0, 1, [pending, settled], settled⟩
  else if 0 < targetPower then
    let pending : ExpectedPower := ⟨true, targetPower, true⟩
    if commandFails then
      let reverted : ExpectedPower := ⟨false, 0, false⟩
      ⟨1, 1, 0, [pending, reverted], reverted⟩
    else
      let confirmed : ExpectedPower := ⟨true, targetPower, false⟩
      ⟨1, 0, 1, [pending, confirmed], confirmed⟩
  else
    ⟨0, 0, 0, [], expected⟩

/-- Embedding of `mean` (`src/helpers/math/aggregations.ts`): arithmetic
mean, 0 for an empty array. -/
def mean (values : List ℚ) : ℚ :=
  if values.length = 0 then 0 else values.sum / values.length

/-- Ascending numeric sort, `[...values].sort((a, b) => a - b)`. -/
def sortAsc (values : List ℚ) : List ℚ :=
  List.insertionSort (fun a b : ℚ => a ≤ b) values

/-- Embedding of `median` (`src/helpers/math/aggregations.ts`): middle
value of the sorted array, averaging the two middle values for even
length; 0 for an empty array.  (The in-range JS index accesses are
modelled with `List.getD`.) -/
def median (values : List ℚ) : ℚ :=
  if values.length = 0 then 0
  else
    let sorted := sortAsc values
    let mid := sorted.length / 2
    if sorted.length % 2 = 0 then (sorted.getD (mid - 1) 0 + sorted.getD mid 0) / 2
    else sorted.getD mid 0

/-- Embedding of the function returned by `trimmedMean(trimPercent)`
(`src/helpers/math/aggregations.ts`).  The factory throws unless
`0 <= trimPercent < 50`; theorems below carry that as a hypothesis.
`sorted.slice(trimCount, sorted.length - trimCount)` is `drop` then
`take`. -/
def trimmedMean (trimPercent : ℚ) (values : List ℚ) : ℚ :=
  if values.length = 0 then 0
  else if values.length ≤ 2 then mean values
  else
    let sorted := sortAsc values
    let trimCount := (⌊((sorted.length : ℚ) * trimPercent) / 100⌋).toNat
    let trimmed := (sorted.drop trimCount).take (sorted.length - trimCount - trimCount)
    mean trimmed

/-- Weights actually applied by `weightedMean` to a window of `numValues`
values: when there are more weights than values, the most recent (last)
`numValues` weights. -/
def effectiveWeights (weights : List ℚ) (numValues : ℕ) : List ℚ :=
  if numValues < weights.length then weights.drop (weights.length - numValues) else weights

/-- Values actually aggregated by `weightedMean`: when there are more
values than weights, the most recent (last) `weights.length` values. -/
def effectiveValues (weights : List ℚ) (values : List ℚ) : List ℚ :=
  if weights.length < values.length then values.drop (values.length - weights.length) else values

/-- Embedding of the function returned by `weightedMean(weights)`
(`src/helpers/math/aggregations.ts`).  The factory throws for an empty or
negative weight list; theorems below carry those as hypotheses.  The
summation loop over `effectiveValues`/`effectiveWeights` (always of equal
length) is a `zip`; the result is the normalized weighted sum when the
applied weights have positive sum and 0 otherwise. -/
def weightedMean (weights : List ℚ) (values : List ℚ) : ℚ :=
  if values.length = 0 then 0
  else
    let effVals := effectiveValues weights values
    let effWts := effectiveWeights weights values.length
    let pairs := effVals.zip effWts
    let weightedSum := (pairs.map (fun p => p.1 * p.2)).sum
    let weightSum := (pairs.map Prod.snd).sum
    if 0 < weightSum then weightedSum / weightSum else 0

/-- A timestamped source value, as produced by the rxjs `timestamp()`
operator in `rollingAverage` (`src/helpers/operators/rollingAverage.ts`). -/
structure TimedValue where
  value : ℚ
  timestamp : ℤ
deriving Repr, DecidableEq

/-- Embedding of the `scan` step of `rollingAverage`
(`src/helpers/operators/rollingAverage.ts`, lines 51-60): append the
current value, then keep the items with
`item.timestamp >= curr.timestamp - windowSize`. -/
def rollingWindowStep (windowSize : ℤ) (acc : List TimedValue)
    (curr : TimedValue) : List TimedValue :=
  (acc ++ [curr]).filter (fun item => decide (curr.timestamp - windowSize ≤ item.timestamp))

/-- The sliding windows produced by the `scan` of `rollingAverage`, one per
source emission (rxjs `scan` emits each new accumulator, not the seed). -/
def rollingWindows (windowSize : ℤ) (inputs : List TimedValue) : List (List TimedValue) :=
  (List.scanl (rollingWindowStep windowSize) [] inputs).drop 1

/-- Embedding of the `rollingAverage` operator
(`src/helpers/operators/rollingAverage.ts`): per emission, the aggregation
function applied to the values of the window, with a fallback of 0 for an
empty window (lines 62-66). -/
def rollingAverageOutputs (windowSize : ℤ) (aggregationFn : List ℚ → ℚ)
    (inputs : List TimedValue) : List ℚ :=
  (rollingWindows windowSize inputs).map
    (fun tvs => if tvs.length = 0 then 0 else aggregationFn (tvs.map TimedValue.value))

/-- Helper for `distinctUntilChanged`: drop the elements equal to their
predecessor, `prev` being the last emitted value. -/
def dedupFrom (prev : ℚ) : List ℚ → List ℚ
  | [] => []
  | y :: ys => if y = prev then dedupFrom prev ys else y :: dedupFrom y ys

/-- Embedding of rxjs `distinctUntilChanged()` on the list of emissions:
keep each value that differs from the previously emitted one. -/
def distinctUntilChanged : List ℚ → List ℚ
  | [] => []
  | x :: xs => x :: dedupFrom x xs

/-- Embedding of `createRollingAverage$` (`src/helpers/createRollingAverage.ts`):
`rollingAverage(windowMs, aggregationFn)` then `map(v => Math.floor(v))`
then `distinctUntilChanged()`.  (`ms("3m")`-style window parsing and the
multicast `share()` do not affect the emitted values and are omitted.) -/
def createRollingAverageOutputs (windowMs : ℤ) (aggregationFn : List ℚ → ℚ)
    (inputs : List TimedValue) : List ℚ :=
  distinctUntilChanged
    ((rollingAverageOutputs windowMs aggregationFn inputs).map (fun v => ((⌊v⌋ : ℤ) : ℚ)))

/-- A left fold of `max` computes a maximum: it is one of the elements and
bounds them all. -/
theorem foldl_max_spec (x : ℤ) (xs : List ℤ) :
    xs.foldl max x ∈ x :: xs ∧ ∀ b ∈ x :: xs, b ≤ xs.foldl max x := by
  induction xs generalizing x with
  | nil =>
      simp
  | cons y ys ih =>
      obtain ⟨hmem, hbd⟩ := ih (max x y)
      constructor
      · rw [List.foldl_cons]
        rcases List.mem_cons.mp hmem with h | h
        · rcases max_choice x y with hxy | hxy
          · exact List.mem_cons.mpr (Or.inl (h.trans hxy))
          · exact List.mem_cons_of_mem x (List.mem_cons.mpr (Or.inl (h.trans hxy)))
        · exact List.mem_cons_of_mem x (List.mem_cons_of_mem y h)
      · intro b hb
        rcases List.mem_cons.mp hb with h | h
        · subst h
          calc b ≤ max b y := le_max_left _ _
          _ ≤ ys.foldl max (max b y) := hbd _ (List.mem_cons_self _ _)
        · rcases List.mem_cons.mp h with h' | h'
          · subst h'
            calc b ≤ max x b := le_max_right _ _
            _ ≤ ys.foldl max (max x b) := hbd _ (List.mem_cons_self _ _)
          · exact hbd b (List.mem_cons_of_mem _ h')

/-- The first element of the descending insertion sort of a list is its
maximum (as `foldl max` over the list). -/
theorem head?_insertionSort_desc (l : List ℤ) :
    (List.insertionSort (fun a b : ℤ => b ≤ a) l).head? =
      (match l with
       | [] => none
       | x :: xs => some (xs.foldl max x)) := by
  haveI instTot : IsTotal ℤ (fun a b : ℤ => b ≤ a) := ⟨fun a b => le_total b a⟩
  haveI instTrans : IsTrans ℤ (fun a b : ℤ => b ≤ a) := ⟨fun _ _ _ hab hbc => le_trans hbc hab⟩
  cases l with
  | nil => rfl
  | cons x xs =>
      have hperm := List.perm_insertionSort (fun a b : ℤ => b ≤ a) (x :: xs)
      have hsorted := List.sorted_insertionSort (fun a b : ℤ => b ≤ a) (x :: xs)
      have hne : List.insertionSort (fun a b : ℤ => b ≤ a) (x :: xs) ≠ [] := by
        intro h
        have := hperm.length_eq
        rw [h] at this
        simp at this
      obtain ⟨h, t, ht⟩ := List.exists_cons_of_ne_nil hne
      rw [ht] at hperm hsorted ⊢
      obtain ⟨hMmem, hMbd⟩ := foldl_max_spec x xs
      have hhmem : h ∈ x :: xs := hperm.mem_iff.mp (List.mem_cons_self _ _)
      have hhbd : ∀ b ∈ x :: xs, b ≤ h := by
        intro b hb
        have hb' : b ∈ h :: t := hperm.mem_iff.mpr hb
        rcases List.mem_cons.mp hb' with rfl | hb''
        · exact le_refl _
        · exact List.rel_of_sorted_cons hsorted b hb''
      have : h = xs.foldl max x := le_antisymm (hMbd h hhmem) (hhbd _ hMmem)
      simp [this]

/-- The filter-sort-take-first of the allocation loop computes exactly the
spec's "largest feasible level or 0", with the source's `remainingPower`
bookkeeping: the two loop bodies agree. -/
theorem allocLoopStep_eq_specAllocStep (loadCurrentPower : String → LoadPowerState)
    (st : AllocState) (entry : String × LoadState) :
    allocLoopStep loadCurrentPower st entry = specAllocStep loadCurrentPower st entry := by
  unfold allocLoopStep specAllocStep specChooseLevel
  simp only [head?_insertionSort_desc]
  cases hF : (entry.2.control.levels).filter
      (fun level => decide (level ≤ st.remaining + (loadCurrentPower entry.1).power)) with
  | nil => simp [hF]
  | cons x xs =>
      by_cases hz : xs.foldl max x = 0
      · simp [hF, hz]
      · simp [hF, hz]

/-- The set-0W-for-ineligible loop is the identity when every processed
entry is eligible (as it is in the source, which iterates over the
already-filtered `eligible` array). -/
theorem foldl_ineligibleZeroStep_of_eligible (l : List (String × LoadState))
    (allocations : List (String × ℤ))
    (h : ∀ e ∈ l, e.2.eligibility.eligible = true) :
    l.foldl ineligibleZeroStep allocations = allocations := by
  induction l generalizing allocations with
  | nil => rfl
  | cons e l ih =>
      rw [List.foldl_cons]
      have he : e.2.eligibility.eligible = true := h e (List.mem_cons_self _ _)
      have hstep : ineligibleZeroStep allocations e = allocations := by
        unfold ineligibleZeroStep
        rw [if_neg]
        intro hc
        exact hc.1 he
      rw [hstep]
      exact ih allocations (fun e' he' => h e' (List.mem_cons_of_mem _ he'))

theorem allocSum_append (l : List (String × ℤ)) (p : String × ℤ) :
    allocSum (l ++ [p]) = allocSum l + p.2 := by
  simp [allocSum]

/-- One iteration of the second loop either leaves the record unchanged or
appends a 0-watt entry. -/
theorem ineligibleZeroStep_cases (allocations : List (String × ℤ))
    (entry : String × LoadState) :
    ineligibleZeroStep allocations entry = allocations ∨
      ineligibleZeroStep allocations entry = allocations ++ [(entry.1, 0)] := by
  unfold ineligibleZeroStep
  split
  · exact Or.inr rfl
  · exact Or.inl rfl

/-- The second loop never changes the total allocated power (it can only
append 0-watt entries). -/
theorem allocSum_foldl_ineligibleZeroStep (l : List (String × LoadState))
    (allocations : List (String × ℤ)) :
    allocSum (l.foldl ineligibleZeroStep allocations) = allocSum allocations := by
  induction l generalizing allocations with
  | nil => rfl
  | cons e l ih =>
      rw [List.foldl_cons]
      rcases ineligibleZeroStep_cases allocations e with h | h
      · rw [h, ih]
      · rw [h, ih, allocSum_append]
        simp

/-- The chosen level of a loop iteration is 0, or is one of the load's
levels and satisfies the feasibility bound. -/
theorem specChooseLevel_cases (levels : List ℤ) (bound : ℤ) :
    specChooseLevel levels bound = 0 ∨
      (specChooseLevel levels bound ∈ levels ∧ specChooseLevel levels bound ≤ bound) := by
  unfold specChooseLevel
  cases hF : levels.filter (fun level => decide (level ≤ bound)) with
  | nil => exact Or.inl rfl
  | cons x xs =>
      right
      obtain ⟨hmem, -⟩ := foldl_max_spec x xs
      have hmemF : xs.foldl max x ∈ levels.filter (fun level => decide (level ≤ bound)) := by
        rw [hF]; exact hmem
      have := List.mem_filter.mp hmemF
      exact ⟨this.1, of_decide_eq_true this.2⟩

/-- Elements of the sorted eligible list are eligible entries of the input
load map. -/
theorem mem_sortedEligible {loads : List (String × LoadState)} {e : String × LoadState}
    (h : e ∈ List.insertionSort
      (fun a b : String × LoadState => b.2.priority.score ≤ a.2.priority.score)
      (loads.filter (fun e => e.2.eligibility.eligible))) :
    e ∈ loads ∧ e.2.eligibility.eligible = true := by
  have hmem : e ∈ loads.filter (fun e => e.2.eligibility.eligible) :=
    (List.perm_insertionSort _ _).mem_iff.mp h
  exact ⟨List.mem_of_mem_filter hmem, (List.mem_filter.mp hmem).2⟩

theorem allocatePower_eq_specAllocatePower (loads : List (String × LoadState))
    (loadCurrentPower : String → LoadPowerState) (availablePower : ℤ) :
    allocatePower loads loadCurrentPower availablePower =
      specAllocatePower loads loadCurrentPower availablePower := by
  unfold allocatePower specAllocatePower
  have hstep : allocLoopStep loadCurrentPower = specAllocStep loadCurrentPower := by
    funext st entry
    exact allocLoopStep_eq_specAllocStep loadCurrentPower st entry
  rw [hstep]
  exact foldl_ineligibleZeroStep_of_eligible _ _ (fun e he => (mem_sortedEligible he).2)

/-- One allocation-loop iteration preserves `remaining + allocated total`. -/
theorem allocLoopStep_invariant (loadCurrentPower : String → LoadPowerState)
    (st : AllocState) (entry : String × LoadState) :
    (allocLoopStep loadCurrentPower st entry).remaining +
        allocSum (allocLoopStep loadCurrentPower st entry).allocations =
      st.remaining + allocSum st.allocations := by
  rw [allocLoopStep_eq_specAllocStep]
  unfold specAllocStep
  simp [allocSum_append]

/-- Across the whole allocation loop, `remaining + allocated total` is the
initial `remaining + allocated total`. -/
theorem foldl_allocLoopStep_invariant (loadCurrentPower : String → LoadPowerState)
    (l : List (String × LoadState)) (st : AllocState) :
    (l.foldl (allocLoopStep loadCurrentPower) st).remaining +
        allocSum (l.foldl (allocLoopStep loadCurrentPower) st).allocations =
      st.remaining + allocSum st.allocations := by
  induction l generalizing st with
  | nil => rfl
  | cons e l ih =>
      rw [List.foldl_cons, ih, allocLoopStep_invariant]

/-- One allocation-loop iteration can drive `remaining` no lower than the
negation of the entry's (nonnegative part of) observed power. -/
theorem allocLoopStep_remaining_lb (loadCurrentPower : String → LoadPowerState)
    (st : AllocState) (entry : String × LoadState) :
    min st.remaining (-(max (loadCurrentPower entry.1).power 0)) ≤
      (allocLoopStep loadCurrentPower st entry).remaining := by
  rw [allocLoopStep_eq_specAllocStep]
  unfold specAllocStep
  simp only []
  rcases specChooseLevel_cases entry.2.control.levels
      (st.remaining + (loadCurrentPower entry.1).power) with h | ⟨-, hle⟩
  · rw [h]
    simp
  · have h1 : -(loadCurrentPower entry.1).power ≤ st.remaining -
        specChooseLevel entry.2.control.levels
          (st.remaining + (loadCurrentPower entry.1).power) := by linarith
    have h2 : -(max (loadCurrentPower entry.1).power 0) ≤ -(loadCurrentPower entry.1).power := by
      simp [le_max_left]
    exact le_trans (min_le_right _ _) (le_trans h2 h1)

/-- Across the whole allocation loop, `remaining` never drops below
`min remaining₀ (-A)` when every processed entry's positive observed power
is at most `A`. -/
theorem foldl_allocLoopStep_remaining_lb (loadCurrentPower : String → LoadPowerState)
    (A : ℤ) (l : List (String × LoadState)) (st : AllocState)
    (h : ∀ e ∈ l, max (loadCurrentPower e.1).power 0 ≤ A) :
    min st.remaining (-A) ≤ (l.foldl (allocLoopStep loadCurrentPower) st).remaining := by
  induction l generalizing st with
  | nil => exact min_le_left _ _
  | cons e l ih =>
      rw [List.foldl_cons]
      have he : max (loadCurrentPower e.1).power 0 ≤ A := h e (List.mem_cons_self _ _)
      have h1 : min st.remaining (-A) ≤
          (allocLoopStep loadCurrentPower st e).remaining := by
        refine le_trans ?_ (allocLoopStep_remaining_lb loadCurrentPower st e)
        exact min_le_min (le_refl _) (by linarith)
      have h2 : min st.remaining (-A) ≤
          min (allocLoopStep loadCurrentPower st e).remaining (-A) :=
        le_min h1 (min_le_right _ _)
      exact le_trans h2 (ih _ (fun e' he' => h e' (List.mem_cons_of_mem _ he')))

/-- The positive part of any load's observed power is at most the total
observed power of the loads currently drawing power. -/
theorem max_power_le_activePowerSum (loads : List (String × LoadState))
    (loadCurrentPower : String → LoadPowerState) {e : String × LoadState}
    (he : e ∈ loads) :
    max (loadCurrentPower e.1).power 0 ≤ activePowerSum loads loadCurrentPower := by
  unfold activePowerSum
  have hnonneg : ∀ p ∈ (loads.map (fun e => (loadCurrentPower e.1).power)).filter
      (fun p => decide (0 < p)), (0 : ℤ) ≤ p := by
    intro p hp
    exact le_of_lt (of_decide_eq_true (List.mem_filter.mp hp).2)
  by_cases hpos : 0 < (loadCurrentPower e.1).power
  · have hmem : (loadCurrentPower e.1).power ∈
        (loads.map (fun e => (loadCurrentPower e.1).power)).filter
          (fun p => decide (0 < p)) := by
      refine List.mem_filter.mpr ⟨List.mem_map.mpr ⟨e, he, rfl⟩, decide_eq_true hpos⟩
    have := List.single_le_sum hnonneg _ hmem
    rw [max_eq_left (le_of_lt hpos)]
    exact this
  · rw [max_eq_right (le_of_not_lt hpos)]
    exact List.sum_nonneg hnonneg

theorem allocSum_nil : allocSum [] = 0 := rfl

/-- C1 (amended): for every map of loads, map of observed power and budget,
the sum of the allocated levels never exceeds the greater of 0 and
`budget + sum(observed power of the loads already drawing power)`. -/
theorem allocatePower_no_overallocation (loads : List (String × LoadState))
    (loadCurrentPower : String → LoadPowerState) (availablePower : ℤ) :
    allocSum (allocatePower loads loadCurrentPower availablePower) ≤
      max 0 (availablePower + activePowerSum loads loadCurrentPower) := by
  set A := activePowerSum loads loadCurrentPower with hA
  set sorted := List.insertionSort
    (fun a b : String × LoadState => b.2.priority.score ≤ a.2.priority.score)
    (loads.filter (fun e => e.2.eligibility.eligible)) with hsorted
  have hAlloc : allocatePower loads loadCurrentPower availablePower =
      sorted.foldl ineligibleZeroStep
        (sorted.foldl (allocLoopStep loadCurrentPower) ⟨availablePower, []⟩).allocations := rfl
  rw [hAlloc, allocSum_foldl_ineligibleZeroStep]
  have hinv := foldl_allocLoopStep_invariant loadCurrentPower sorted ⟨availablePower, []⟩
  rw [allocSum_nil] at hinv
  have hlb := foldl_allocLoopStep_remaining_lb loadCurrentPower A sorted ⟨availablePower, []⟩
    (fun e he => max_power_le_activePowerSum loads loadCurrentPower (mem_sortedEligible he).1)
  rcases min_cases availablePower (-A) with ⟨hm, -⟩ | ⟨hm, -⟩ <;> rw [hm] at hlb
  · have := le_max_left (0 : ℤ) (availablePower + A)
    linarith
  · have := le_max_right (0 : ℤ) (availablePower + A)
    linarith

/-- C1 (counterexample): with a single eligible load offering only the
infeasible level 1000W, no observed power anywhere and budget -1W, the
allocation sums to 0, which exceeds `budget + activePowerSum = -1`. -/
theorem allocSum_budget_bound_counterexample :
    ¬ (allocSum (allocatePower [("tesla", ⟨⟨false, 0, false⟩, ⟨[1000]⟩, ⟨true⟩, ⟨50⟩⟩)]
          (fun _ => ⟨false, 0, Confidence.low⟩) (-1)) ≤
        -1 + activePowerSum [("tesla", ⟨⟨false, 0, false⟩, ⟨[1000]⟩, ⟨true⟩, ⟨50⟩⟩)]
          (fun _ => ⟨false, 0, Confidence.low⟩)) := by
  decide

/-- C2: `allocatePower` assigns each eligible load, in descending-priority
order, exactly the largest control level `L` with
`L <= remaining + observed[load].power` (0 when no level qualifies) —
it agrees with `specAllocatePower`, which is worded that way — and in
particular a single load drawing 2000W with levels {0, 1000, 2000} under
budget -1000W is allocated 1000W. -/
theorem allocatePower_assigns_largest_feasible_level :
    (∀ (loads : List (String × LoadState)) (loadCurrentPower : String → LoadPowerState)
        (availablePower : ℤ),
      allocatePower loads loadCurrentPower availablePower =
        specAllocatePower loads loadCurrentPower availablePower) ∧
    allocatePower [("tesla", ⟨⟨true, 2000, false⟩, ⟨[0, 1000, 2000]⟩, ⟨true⟩, ⟨50⟩⟩)]
        (fun _ => ⟨true, 2000, Confidence.high⟩) (-1000) = [("tesla", 1000)] :=
  ⟨allocatePower_eq_specAllocatePower, by decide⟩

/-- C3 (counterexample): a load drawing 1000W that is assigned the nonzero
level 1000W out of a remaining budget of 0W leaves `remainingPower = -1000`,
not `remaining + observed[load].power - chosenLevel = 0`: the loop only
subtracts the chosen level. -/
theorem remaining_update_counterexample :
    (allocLoopStep (fun _ => ⟨true, 1000, Confidence.high⟩) ⟨0, []⟩
        ("heater", ⟨⟨true, 1000, false⟩, ⟨[1000]⟩, ⟨true⟩, ⟨50⟩⟩)).allocations =
      [("heater", 1000)] ∧
    ¬ ((allocLoopStep (fun _ => ⟨true, 1000, Confidence.high⟩) ⟨0, []⟩
        ("heater", ⟨⟨true, 1000, false⟩, ⟨[1000]⟩, ⟨true⟩, ⟨50⟩⟩)).remaining =
      0 + ((fun _ => (⟨true, 1000, Confidence.high⟩ : LoadPowerState)) "heater").power - 1000) := by
  decide

/-- C3 (amended): each allocation-loop iteration appends the chosen level
`v` for the load and updates the remaining budget to `remaining - v`; the
load's observed draw enters the feasibility bound but is not added back to
the pool. -/
theorem allocLoopStep_remaining_update (loadCurrentPower : String → LoadPowerState)
    (st : AllocState) (entry : String × LoadState) :
    ∃ v, (allocLoopStep loadCurrentPower st entry).allocations =
        st.allocations ++ [(entry.1, v)] ∧
      (allocLoopStep loadCurrentPower st entry).remaining = st.remaining - v := by
  rw [allocLoopStep_eq_specAllocStep]
  exact ⟨_, rfl, rfl⟩

/-- C4: when a previous allocation exists and some load's observed power
differs from that load's entry in it, the Manager skips the cycle entirely:
`decideAllocation` publishes nothing, whatever the available budget. -/
theorem manager_skips_allocation_when_out_of_sync
    (loadStates : List (String × LoadState))
    (loadsActualPower : String → LoadPowerState) (availablePower : ℤ)
    (prev : List (String × ℤ)) (id : String) (p : ℤ)
    (hmem : id ∈ loadStates.map Prod.fst)
    (hlook : List.lookup id prev = some p)
    (hne : p ≠ (loadsActualPower id).power) :
    decideAllocation loadStates loadsActualPower availablePower (some prev) = none := by
  have hid : id ∈ (loadStates.map Prod.fst).filter
      (fun id => ! decide (List.lookup id prev = some (loadsActualPower id).power)) := by
    refine List.mem_filter.mpr ⟨hmem, ?_⟩
    simp [hlook, hne]
  have hpos : 0 < ((loadStates.map Prod.fst).filter
      (fun id => ! decide (List.lookup id prev = some (loadsActualPower id).power))).length :=
    List.length_pos.mpr (List.ne_nil_of_mem hid)
  unfold decideAllocation
  simp [hpos]

/-- C4 witness: previous allocation 1500W for the only load, observed power
1000W — the cycle is skipped (budget 3000W notwithstanding). -/
theorem manager_skips_allocation_when_out_of_sync_witness :
    ("tesla" ∈ ([("tesla",
          (⟨⟨true, 1500, false⟩, ⟨[0, 1500]⟩, ⟨true⟩, ⟨50⟩⟩ : LoadState))].map Prod.fst) ∧
      List.lookup "tesla" [("tesla", (1500 : ℤ))] = some 1500 ∧
      (1500 : ℤ) ≠ ((fun _ => (⟨true, 1000, Confidence.high⟩ : LoadPowerState)) "tesla").power) ∧
    decideAllocation [("tesla", ⟨⟨true, 1500, false⟩, ⟨[0, 1500]⟩, ⟨true⟩, ⟨50⟩⟩)]
      (fun _ => ⟨true, 1000, Confidence.high⟩) 3000 (some [("tesla", 1500)]) = none :=
  ⟨⟨by decide, by decide, by decide⟩,
    manager_skips_allocation_when_out_of_sync _ _ 3000 _ "tesla" 1500
      (by decide) (by decide) (by decide)⟩

/-- C5 (counterexample): two inputs that differ only in the eligibility
flag of their single load produce different allocations — the eligible load
is allocated 100W, the ineligible one is dropped from the result entirely
(`allocatePower` consults eligibility directly in its initial filter). -/
theorem eligibility_independence_counterexample :
    allocatePower [("a", ⟨⟨false, 0, false⟩, ⟨[100]⟩, ⟨true⟩, ⟨50⟩⟩)]
        (fun _ => ⟨false, 0, Confidence.medium⟩) 100 = [("a", 100)] ∧
    allocatePower [("a", ⟨⟨false, 0, false⟩, ⟨[100]⟩, ⟨false⟩, ⟨50⟩⟩)]
        (fun _ => ⟨false, 0, Confidence.medium⟩) 100 = [] ∧
    allocatePower [("a", ⟨⟨false, 0, false⟩, ⟨[100]⟩, ⟨true⟩, ⟨50⟩⟩)]
        (fun _ => ⟨false, 0, Confidence.medium⟩) 100 ≠
      allocatePower [("a", ⟨⟨false, 0, false⟩, ⟨[100]⟩, ⟨false⟩, ⟨50⟩⟩)]
        (fun _ => ⟨false, 0, Confidence.medium⟩) 100 := by
  refine ⟨by decide, by decide, by decide⟩

/-- C5 (amended): eligibility influences `allocatePower` exactly through
its initial filter: two load maps with the same eligible entries (in the
same order) yield the same allocation, whatever their ineligible entries. -/
theorem allocatePower_depends_only_on_eligible_entries
    (loads₁ loads₂ : List (String × LoadState))
    (loadCurrentPower : String → LoadPowerState) (availablePower : ℤ)
    (h : loads₁.filter (fun e => e.2.eligibility.eligible) =
      loads₂.filter (fun e => e.2.eligibility.eligible)) :
    allocatePower loads₁ loadCurrentPower availablePower =
      allocatePower loads₂ loadCurrentPower availablePower := by
  unfold allocatePower
  rw [h]

/-- C5 amended witness: adding an ineligible load (or changing its levels
and priority) does not change the allocation. -/
theorem allocatePower_depends_only_on_eligible_entries_witness :
    ([("a", (⟨⟨false, 0, false⟩, ⟨[100]⟩, ⟨true⟩, ⟨50⟩⟩ : LoadState)),
        ("b", ⟨⟨false, 0, false⟩, ⟨[9999]⟩, ⟨false⟩, ⟨99⟩⟩)].filter
        (fun e => e.2.eligibility.eligible) =
      [("a", (⟨⟨false, 0, false⟩, ⟨[100]⟩, ⟨true⟩, ⟨50⟩⟩ : LoadState))].filter
        (fun e => e.2.eligibility.eligible)) ∧
    allocatePower [("a", ⟨⟨false, 0, false⟩, ⟨[100]⟩, ⟨true⟩, ⟨50⟩⟩),
        ("b", ⟨⟨false, 0, false⟩, ⟨[9999]⟩, ⟨false⟩, ⟨99⟩⟩)]
        (fun _ => ⟨false, 0, Confidence.medium⟩) 100 =
      allocatePower [("a", ⟨⟨false, 0, false⟩, ⟨[100]⟩, ⟨true⟩, ⟨50⟩⟩)]
        (fun _ => ⟨false, 0, Confidence.medium⟩) 100 :=
  ⟨by decide,
    allocatePower_depends_only_on_eligible_entries _ _ _ 100 (by decide)⟩

/-- C6 (code behaviour at the failing input): an ineligible load receives
no entry at all in the returned allocation — the source's
"explicitly set 0W for ineligible loads" loop ranges over the
already-filtered eligible array, so its condition never fires. -/
theorem ineligible_load_gets_no_entry :
    allocatePower [("tesla", ⟨⟨false, 0, false⟩, ⟨[1000, 2000]⟩, ⟨false⟩, ⟨50⟩⟩)]
        (fun _ => ⟨false, 0, Confidence.medium⟩) 5000 = [] ∧
    allocLookup (allocatePower [("tesla", ⟨⟨false, 0, false⟩, ⟨[1000, 2000]⟩, ⟨false⟩, ⟨50⟩⟩)]
        (fun _ => ⟨false, 0, Confidence.medium⟩) 5000) "tesla" ≠ some 0 := by
  refine ⟨by decide, by decide⟩

/-- C8 (counterexample): a persistently failing start command is attempted
exactly once per reconciliation pass, not the 3 times the claimed retry cap
would require — the reconcile path has no retry. -/
theorem actuator_retry_counterexample :
    (reconcileStep 1150 0 ⟨false, 0, false⟩ true).commandAttempts = 1 ∧
    (reconcileStep 1150 0 ⟨false, 0, false⟩ true).commandAttempts ≠ 3 := by
  decide

/-- C8 (amended): a failing start/adjust command is attempted exactly once
(no retry or backoff on actuator commands), exactly one failure
notification is emitted, and `expectedPower` is reverted to 0 with no
pending command; the 3-attempt, 10s-capped exponential backoff lives on
the BLE telemetry poll instead. -/
theorem reconcile_failure_single_attempt (targetPower currentPower : ℤ)
    (expected : ExpectedPower)
    (hpos : 0 < targetPower)
    (hne : targetPower ≠
      (if expected.hasPendingCommand then expected.power else currentPower)) :
    (reconcileStep targetPower currentPower expected true).commandAttempts = 1 ∧
    (reconcileStep targetPower currentPower expected true).failureNotifications = 1 ∧
    (reconcileStep targetPower currentPower expected true).finalExpected = ⟨false, 0, false⟩ ∧
    bleRetryCount = 3 ∧ ∀ retryCount, bleRetryDelayMs retryCount ≤ 10000 := by
  have ht0 : ¬ targetPower = 0 := by omega
  refine ⟨?_, ?_, ?_, rfl, fun retryCount => Nat.min_le_right _ _⟩ <;>
    simp [reconcileStep, hne, ht0, hpos]

/-- C8 amended witness: target 1150W, no pending command, observed 0W,
failing actuator. -/
theorem reconcile_failure_single_attempt_witness :
    ((0 : ℤ) < 1150 ∧
      (1150 : ℤ) ≠ (if (⟨false, 0, false⟩ : ExpectedPower).hasPendingCommand
        then (⟨false, 0, false⟩ : ExpectedPower).power else (0 : ℤ))) ∧
    ((reconcileStep 1150 0 ⟨false, 0, false⟩ true).commandAttempts = 1 ∧
      (reconcileStep 1150 0 ⟨false, 0, false⟩ true).failureNotifications = 1 ∧
      (reconcileStep 1150 0 ⟨false, 0, false⟩ true).finalExpected = ⟨false, 0, false⟩ ∧
      bleRetryCount = 3 ∧ ∀ retryCount, bleRetryDelayMs retryCount ≤ 10000) :=
  ⟨⟨by decide, by decide⟩,
    reconcile_failure_single_attempt 1150 0 ⟨false, 0, false⟩ (by decide) (by decide)⟩

theorem sortAsc_replicate (n : ℕ) (v : ℚ) :
    sortAsc (List.replicate n v) = List.replicate n v := by
  have hperm := List.perm_insertionSort (fun a b : ℚ => a ≤ b) (List.replicate n v)
  refine List.eq_replicate_iff.mpr ⟨?_, ?_⟩
  · rw [sortAsc]
    rw [hperm.length_eq, List.length_replicate]
  · intro b hb
    exact List.eq_of_mem_replicate (hperm.mem_iff.mp hb)

theorem getD_replicate (v : ℚ) : ∀ (n i : ℕ), i < n → (List.replicate n v).getD i 0 = v := by
  intro n
  induction n with
  | zero => intro i hi; omega
  | succ n ih =>
      intro i hi
      cases i with
      | zero => rfl
      | succ i =>
          rw [List.replicate_succ, List.getD_cons_succ]
          exact ih i (by omega)

theorem mean_replicate (n : ℕ) (v : ℚ) (hn : n ≠ 0) :
    mean (List.replicate n v) = v := by
  unfold mean
  rw [List.length_replicate, if_neg hn, List.sum_replicate, nsmul_eq_mul]
  exact mul_div_cancel_left₀ v (Nat.cast_ne_zero.mpr hn)

theorem median_replicate (n : ℕ) (v : ℚ) (hn : n ≠ 0) :
    median (List.replicate n v) = v := by
  unfold median
  rw [List.length_replicate, if_neg hn]
  simp only [sortAsc_replicate, List.length_replicate]
  have hmid : n / 2 < n := Nat.div_lt_self (Nat.pos_of_ne_zero hn) (by omega)
  by_cases hpar : n % 2 = 0
  · rw [if_pos hpar, getD_replicate v n (n / 2) hmid,
      getD_replicate v n (n / 2 - 1) (by omega)]
    ring
  · rw [if_neg hpar, getD_replicate v n (n / 2) hmid]

theorem trimmedMean_replicate (p : ℚ) (n : ℕ) (v : ℚ) (hn : 1 ≤ n)
    (hp0 : 0 ≤ p) (hp50 : p < 50) :
    trimmedMean p (List.replicate n v) = v := by
  unfold trimmedMean
  rw [List.length_replicate, if_neg (by omega)]
  by_cases hsmall : n ≤ 2
  · rw [if_pos hsmall]
    exact mean_replicate n v (by omega)
  · rw [if_neg hsmall]
    simp only [sortAsc_replicate, List.length_replicate]
    set t := (⌊((n : ℚ) * p) / 100⌋).toNat with ht
    have h2t : 2 * t < n := by
      have hfl : (⌊((n : ℚ) * p) / 100⌋ : ℚ) ≤ ((n : ℚ) * p) / 100 := Int.floor_le _
      have hlt : ((n : ℚ) * p) / 100 < (n : ℚ) / 2 := by
        rw [div_lt_div_iff₀ (by norm_num) (by norm_num)]
        have hnq : (0 : ℚ) < (n : ℚ) := by exact_mod_cast Nat.pos_of_ne_zero (by omega)
        nlinarith
      have hfl0 : 0 ≤ ⌊((n : ℚ) * p) / 100⌋ := by
        apply Int.floor_nonneg.mpr
        positivity
      have htq : (t : ℚ) = (⌊((n : ℚ) * p) / 100⌋ : ℚ) := by
        rw [ht]
        exact_mod_cast Int.toNat_of_nonneg hfl0
      have : (t : ℚ) < (n : ℚ) / 2 := by
        rw [htq]
        exact lt_of_le_of_lt hfl hlt
      have : 2 * (t : ℚ) < (n : ℚ) := by linarith
      exact_mod_cast this
    rw [List.drop_replicate, List.take_replicate]
    have hmin : min (n - t - t) (n - t) = n - t - t := by omega
    rw [hmin]
    exact mean_replicate _ v (by omega)

theorem zip_replicate_self (v : ℚ) (w : List ℚ) :
    (List.replicate w.length v).zip w = w.map (fun x => (v, x)) := by
  induction w with
  | nil => rfl
  | cons x xs ih =>
      rw [List.length_cons, List.replicate_succ, List.zip_cons_cons, ih, List.map_cons]

theorem effectiveValues_replicate (w : List ℚ) (n : ℕ) (v : ℚ) :
    effectiveValues w (List.replicate n v) =
      List.replicate (effectiveWeights w n).length v := by
  unfold effectiveValues effectiveWeights
  rw [List.length_replicate]
  by_cases h1 : w.length < n
  · rw [if_pos h1, if_neg (by omega), List.drop_replicate]
    congr 1
    omega
  · rw [if_neg h1]
    by_cases h2 : n < w.length
    · rw [if_pos h2, List.length_drop]
      congr 1
      omega
    · rw [if_neg h2]
      congr 1
      omega

theorem weighted_pairs_const (v : ℚ) (W : List ℚ) :
    ((W.map (fun x => ((v, x) : ℚ × ℚ))).map (fun p => p.1 * p.2)).sum = v * W.sum ∧
      ((W.map (fun x => ((v, x) : ℚ × ℚ))).map Prod.snd).sum = W.sum := by
  induction W with
  | nil => simp
  | cons x xs ih =>
      constructor
      · simp only [List.map_cons, List.sum_cons, ih.1]
        ring
      · simp only [List.map_cons, List.sum_cons, ih.2]

theorem weightedMean_replicate (w : List ℚ) (n : ℕ) (v : ℚ) (hn : 1 ≤ n)
    (hsum : 0 < (effectiveWeights w n).sum) :
    weightedMean w (List.replicate n v) = v := by
  unfold weightedMean
  rw [List.length_replicate, if_neg (by omega)]
  simp only [effectiveValues_replicate, zip_replicate_self]
  rw [(weighted_pairs_const v (effectiveWeights w n)).1,
    (weighted_pairs_const v (effectiveWeights w n)).2, if_pos hsum]
  exact mul_div_cancel_right₀ v (ne_of_gt hsum)

/-- C7 (amended): a non-empty window of identical values is mapped to that
value by `mean`, `median`, `trimmedMean p` for `0 <= p < 50`, and
`weightedMean w` for non-empty non-negative `w` whose applied weights (the
last `min(windowSize, |w|)` of them) have positive sum. -/
theorem constant_window_aggregation (v : ℚ) (n : ℕ) (p : ℚ) (w : List ℚ)
    (hn : 1 ≤ n) :
    mean (List.replicate n v) = v ∧
    median (List.replicate n v) = v ∧
    (0 ≤ p → p < 50 → trimmedMean p (List.replicate n v) = v) ∧
    (w ≠ [] → (∀ x ∈ w, 0 ≤ x) → 0 < (effectiveWeights w n).sum →
      weightedMean w (List.replicate n v) = v) :=
  ⟨mean_replicate n v (by omega), median_replicate n v (by omega),
    fun hp0 hp50 => trimmedMean_replicate p n v hn hp0 hp50,
    fun _ _ hsum => weightedMean_replicate w n v hn hsum⟩

/-- C7 amended witness: window of three 7s, trim 10%, weights [1]. -/
theorem constant_window_aggregation_witness :
    ((1 : ℕ) ≤ 3 ∧ (0 : ℚ) ≤ 10 ∧ (10 : ℚ) < 50 ∧ ([1] : List ℚ) ≠ [] ∧
      (∀ x ∈ ([1] : List ℚ), 0 ≤ x) ∧ 0 < (effectiveWeights [1] 3).sum) ∧
    (mean (List.replicate 3 (7 : ℚ)) = 7 ∧
      median (List.replicate 3 (7 : ℚ)) = 7 ∧
      trimmedMean 10 (List.replicate 3 (7 : ℚ)) = 7 ∧
      weightedMean [1] (List.replicate 3 (7 : ℚ)) = 7) := by
  have h := constant_window_aggregation 7 3 10 [1] (by decide)
  exact ⟨⟨by decide, by decide, by decide, by decide, by decide,
      by simp [effectiveWeights]⟩,
    h.1, h.2.1, h.2.2.1 (by decide) (by decide),
    h.2.2.2 (by decide) (by decide) (by simp [effectiveWeights])⟩

/-- C7 (counterexample): the weight list [0] is non-empty and non-negative,
but `weightedMean [0]` maps the constant two-value window [5, 5] to 0, not
5 — the applied weights sum to 0, so the normalisation guard returns 0. -/
theorem weightedMean_constant_counterexample :
    (([0] : List ℚ) ≠ [] ∧ ∀ x ∈ ([0] : List ℚ), 0 ≤ x) ∧
    weightedMean [0] (List.replicate 2 5) ≠ 5 := by
  refine ⟨⟨by decide, by decide⟩, ?_⟩
  norm_num [weightedMean, effectiveValues, effectiveWeights, List.replicate]

theorem scanl_head_cons {α β : Type} (f : α → β → α) (b : α) (l : List β) :
    List.scanl f b l = b :: (List.scanl f b l).drop 1 := by
  cases l <;> simp [List.scanl]

/-- Every element the `scan` of `rollingAverage` emits is the result of a
window step. -/
theorem windows_are_steps {α β : Type} (f : α → β → α) (l : List β) :
    ∀ (b : α) (x : α), x ∈ (List.scanl f b l).drop 1 → ∃ a c, x = f a c := by
  induction l with
  | nil =>
      intro b x hx
      simp [List.scanl] at hx
  | cons c l ih =>
      intro b x hx
      simp only [List.scanl_cons, List.drop_one, List.singleton_append,
        List.tail_cons] at hx
      rw [scanl_head_cons] at hx
      rcases List.mem_cons.mp hx with h | h
      · exact ⟨b, c, h⟩
      · exact ih (f b c) x h

/-- C9: for any `windowSize >= 0`, the window handed to the aggregation
function after each emission contains the value that just arrived, so every
window in the trace is non-empty and the `length === 0` fallback returning
0 is unreachable: the operator output is exactly the aggregation function
mapped over the windows. -/
theorem rolling_window_never_empty (windowSize : ℤ) (aggregationFn : List ℚ → ℚ)
    (inputs : List TimedValue) (hws : 0 ≤ windowSize) :
    (∀ (acc : List TimedValue) (curr : TimedValue),
      curr ∈ rollingWindowStep windowSize acc curr) ∧
    (∀ w ∈ rollingWindows windowSize inputs, w ≠ []) ∧
    rollingAverageOutputs windowSize aggregationFn inputs =
      (rollingWindows windowSize inputs).map
        (fun tvs => aggregationFn (tvs.map TimedValue.value)) := by
  have hcur : ∀ (acc : List TimedValue) (curr : TimedValue),
      curr ∈ rollingWindowStep windowSize acc curr := by
    intro acc curr
    unfold rollingWindowStep
    refine List.mem_filter.mpr
      ⟨List.mem_append.mpr (Or.inr (List.mem_singleton.mpr rfl)), ?_⟩
    exact decide_eq_true (by linarith)
  have hne : ∀ w ∈ rollingWindows windowSize inputs, w ≠ [] := by
    intro w hw
    unfold rollingWindows at hw
    obtain ⟨a, c, rfl⟩ := windows_are_steps _ _ _ _ hw
    exact List.ne_nil_of_mem (hcur a c)
  refine ⟨hcur, hne, ?_⟩
  unfold rollingAverageOutputs
  refine List.map_congr_left ?_
  intro w hw
  rw [if_neg (fun h => hne w hw (List.length_eq_zero.mp h))]

/-- C9 witness: a 1000ms window over the single emission 5 at time 0. -/
theorem rolling_window_never_empty_witness :
    (0 : ℤ) ≤ 1000 ∧
    ((∀ (acc : List TimedValue) (curr : TimedValue),
        curr ∈ rollingWindowStep 1000 acc curr) ∧
      (∀ w ∈ rollingWindows 1000 [⟨5, 0⟩], w ≠ []) ∧
      rollingAverageOutputs 1000 mean [⟨5, 0⟩] =
        (rollingWindows 1000 [⟨5, 0⟩]).map
          (fun tvs => mean (tvs.map TimedValue.value))) :=
  ⟨by decide, rolling_window_never_empty 1000 mean [⟨5, 0⟩] (by decide)⟩

theorem mem_dedupFrom (x : ℚ) : ∀ (l : List ℚ) (prev : ℚ), x ∈ dedupFrom prev l → x ∈ l := by
  intro l
  induction l with
  | nil => intro prev hx; exact absurd hx (by simp [dedupFrom])
  | cons y ys ih =>
      intro prev hx
      unfold dedupFrom at hx
      by_cases hy : y = prev
      · rw [if_pos hy] at hx
        exact List.mem_cons_of_mem y (ih prev hx)
      · rw [if_neg hy] at hx
        rcases List.mem_cons.mp hx with h | h
        · exact h ▸ List.mem_cons_self _ _
        · exact List.mem_cons_of_mem y (ih y h)

theorem mem_distinctUntilChanged (x : ℚ) (l : List ℚ)
    (hx : x ∈ distinctUntilChanged l) : x ∈ l := by
  cases l with
  | nil => exact absurd hx (by simp [distinctUntilChanged])
  | cons y ys =>
      unfold distinctUntilChanged at hx
      rcases List.mem_cons.mp hx with h | h
      · exact h ▸ List.mem_cons_self _ _
      · exact List.mem_cons_of_mem y (mem_dedupFrom x ys y h)

/-- C10: every value `createRollingAverage$` emits is an integer — the
window aggregate goes through `Math.floor` before `distinctUntilChanged`,
so each emission is the floor of some aggregate. -/
theorem createRollingAverage_emits_integers (windowMs : ℤ)
    (aggregationFn : List ℚ → ℚ) (inputs : List TimedValue) :
    (createRollingAverageOutputs windowMs aggregationFn inputs).Forall
      (fun x => ∃ z : ℤ, x = (z : ℚ)) := by
  rw [List.forall_iff_forall_mem]
  intro x hx
  have hx' : x ∈ (rollingAverageOutputs windowMs aggregationFn inputs).map
      (fun v => ((⌊v⌋ : ℤ) : ℚ)) :=
    mem_distinctUntilChanged x _ hx
  obtain ⟨v, -, rfl⟩ := List.mem_map.mp hx'
  exact ⟨⌊v⌋, rfl⟩

end ReactiveHass
